import Mathlib

/-!
Shallow embedding of the FUT Monte-Carlo simulation core.

This file embeds the core of `src/simulation.py` and `src/main.py`:

* `TargetPlayer`              — the frozen dataclass `TargetPlayer(name, p)`;
* `_build_distribution`       — builds the categorical distribution over
                                `[player names..., "OTHER"]`;
* `sampleIndex` / `choiceDraw`— the semantics of CPython's
                                `rng.choices(outcomes, weights=probs, k=1)[0]`
                                (bisect-right over cumulative weights of
                                `random() * total`, with the upper index
                                clamped to `len(weights) - 1`);
* `runTrialAux` / `run_single_trial` — the coupon-collector trial loop,
                                with the random stream made explicit as
                                `u : ℕ → ℚ` consumed at an explicit position,
                                and a fuel bound on the number of loop
                                iterations (`none` models "did not stop
                                within `fuel` draws");
* `runManyAux` / `run_many_trials` — the batch executor threading one stream
                                position through the trials sequentially;
* `quantile`                  — `main.quantile` on exact rationals.

Python floats are embedded as `ℚ` (exact arithmetic); Python `ValueError`s
are embedded as the structured `SimError` matching the design's error kinds.
-/

/-- Error kinds of the core, one per `raise ValueError(...)` site
(`InvalidProbability`, `ProbabilityBudgetExceeded` — carrying the offending
sum, as the f-string message does —, `InvalidTrialCount`, `InvalidQuantile`,
`EmptyResultSet`). -/
inductive SimError where
  | invalidProbability : SimError
  | probabilityBudgetExceeded : ℚ → SimError
  | invalidTrialCount : SimError
  | invalidQuantile : SimError
  | emptyResultSet : SimError
deriving DecidableEq

instance {ε α : Type} [DecidableEq ε] [DecidableEq α] : DecidableEq (Except ε α)
  | .error e, .error f => decidable_of_iff (e = f) (by rw [Except.error.injEq])
  | .error _, .ok _ => isFalse fun h => by cases h
  | .ok _, .error _ => isFalse fun h => by cases h
  | .ok x, .ok y => decidable_of_iff (x = y) (by rw [Except.ok.injEq])

/-- Embeds `@dataclass(frozen=True) class TargetPlayer: name: str; p: float`. -/
structure TargetPlayer where
  name : String
  p : ℚ
deriving DecidableEq

/-- Sum of the target probabilities, `p_hit = sum(pl.p for pl in players)`. -/
def sumP (players : List TargetPlayer) : ℚ :=
  (players.map TargetPlayer.p).sum

/-- Embeds `_build_distribution(players)`: validates the probabilities, appends the
synthetic outcome `"OTHER"` with the leftover mass, and renormalizes by the
actual sum. -/
def _build_distribution (players : List TargetPlayer) :
    Except SimError (List String × List ℚ) :=
  if players.any fun pl => decide (pl.p < 0) then
    .error .invalidProbability
  else
    let p_hit := sumP players
    if p_hit > 1 then .error (.probabilityBudgetExceeded p_hit)
    else
      let outcomes := players.map TargetPlayer.name ++ ["OTHER"]
      let probs := players.map TargetPlayer.p ++ [1 - p_hit]
      let s := probs.sum
      .ok (outcomes, probs.map (· / s))

/-- Index selected by bisect-right over the cumulative weights of `ws` at
value `x`: the least `i` with `ws[0] + ... + ws[i] > x` (and `ws.length` if
there is none). -/
def sampleIndex : List ℚ → ℚ → ℕ
  | [], _ => 0
  | w :: ws, x => if x < w then 0 else sampleIndex ws (x - w) + 1

/-- Semantics of `rng.choices(outcomes, weights=probs, k=1)[0]` for one
uniform value `u ∈ [0,1)`: CPython bisects the cumulative weights at
`u * total` with the high bound `len(weights) - 1`.  In every use here
`probs.length = outcomes.length` and the clamped index is in range, so the
`getD` default is never consulted. -/
def choiceDraw (outcomes : List String) (probs : List ℚ) (u : ℚ) : String :=
  outcomes.getD (min (sampleIndex probs (u * probs.sum)) (probs.length - 1)) ""

/-- Embeds `if draw != "OTHER": collected.add(draw)`. -/
def updateCollected (collected : Finset String) (draw : String) : Finset String :=
  if draw ≠ "OTHER" then insert draw collected else collected

/-- The `while collected != target_set` loop of `run_single_trial`.
`u` is the random stream, consumed at position `pos` (one value per draw,
as `rng.choices` advances the generator once per call); `packs` is
`packs_opened`; `fuel` bounds the number of loop iterations, `none` meaning
the loop did not stop within `fuel` draws.  On stopping it returns
`(packs_opened, final stream position)`. -/
def runTrialAux (outcomes : List String) (probs : List ℚ) (ts : Finset String)
    (u : ℕ → ℚ) : ℕ → Finset String → ℕ → ℕ → Option (ℕ × ℕ)
  | 0, c, packs, pos => if c = ts then some (packs, pos) else none
  | fuel + 1, c, packs, pos =>
    if c = ts then some (packs, pos)
    else
      runTrialAux outcomes probs ts u fuel
        (updateCollected c (choiceDraw outcomes probs (u pos)))
        (packs + 1) (pos + 1)

/-- Embeds `run_single_trial(players, rng)`: builds the distribution, then runs the
collection loop from an empty `collected` set with `packs_opened = 0`.  The
`rng` argument is the stream `u` together with its current position `pos`;
the result pairs `packs_opened` with the advanced stream position. -/
def run_single_trial (players : List TargetPlayer) (u : ℕ → ℚ) (fuel : ℕ)
    (pos : ℕ) : Except SimError (Option (ℕ × ℕ)) :=
  match _build_distribution players with
  | .error e => .error e
  | .ok (outcomes, probs) =>
    .ok (runTrialAux outcomes probs (players.map TargetPlayer.name).toFinset
          u fuel ∅ 0 pos)

/-- The trial list comprehension of `run_many_trials`: `n` trials run left to
right, each consuming the shared stream from where the previous one left it. -/
def runManyAux (players : List TargetPlayer) (u : ℕ → ℚ) (fuel : ℕ) :
    ℕ → ℕ → Except SimError (Option (List ℕ))
  | 0, _ => .ok (some [])
  | n + 1, pos =>
    match run_single_trial players u fuel pos with
    | .error e => .error e
    | .ok none => .ok none
    | .ok (some (k, pos')) =>
      match runManyAux players u fuel n pos' with
      | .error e => .error e
      | .ok none => .ok none
      | .ok (some ks) => .ok (some (k :: ks))

/-- Embeds `run_many_trials(players, n_trials, seed)`: checks `n_trials > 0`, seeds
one generator (the stream `u` at position `0`) and runs the trials
sequentially on it. -/
def run_many_trials (players : List TargetPlayer) (n_trials : ℤ)
    (u : ℕ → ℚ) (fuel : ℕ) : Except SimError (Option (List ℕ)) :=
  if n_trials ≤ 0 then .error .invalidTrialCount
  else runManyAux players u fuel n_trials.toNat 0

/-- Embeds `main.quantile(sorted_vals, q)` on exact rationals.  `int(pos)` truncates
toward zero; `pos ≥ 0` in the reachable branch, so it is `⌊pos⌋`. -/
def quantile (sorted_vals : List ℚ) (q : ℚ) : Except SimError ℚ :=
  if ¬ (0 ≤ q ∧ q ≤ 1) then .error .invalidQuantile
  else
    let n := sorted_vals.length
    if n = 0 then .error .emptyResultSet
    else
      let pos : ℚ := ((n : ℚ) - 1) * q
      let lo : ℕ := ⌊pos⌋.toNat
      let hi : ℕ := min (lo + 1) (n - 1)
      let frac : ℚ := pos - (lo : ℚ)
      .ok (sorted_vals.getD lo 0 * (1 - frac) + sorted_vals.getD hi 0 * frac)

/-- Modelled from the spec (§4.4): the linearly-interpolated order statistic —
sort ascending, compute the fractional rank `pos = (n-1)*q`, and interpolate
between the values at the floor and ceiling indices of `pos`. -/
def quantileSpec (vals : List ℚ) (q : ℚ) : ℚ :=
  let sorted := vals.insertionSort (· ≤ ·)
  let n := vals.length
  let pos : ℚ := ((n : ℚ) - 1) * q
  let lo : ℕ := ⌊pos⌋.toNat
  let hi : ℕ := ⌈pos⌉.toNat
  let frac : ℚ := pos - (lo : ℚ)
  sorted.getD lo 0 * (1 - frac) + sorted.getD hi 0 * frac

/-- The draw `run_single_trial(players, ...)` performs for one uniform value
`v`: `choiceDraw` on the distribution `_build_distribution(players)` builds
(`""` in the unreachable case where the builder fails). -/
def trialDraw (players : List TargetPlayer) (v : ℚ) : String :=
  match _build_distribution players with
  | .ok (outcomes, probs) => choiceDraw outcomes probs v
  | .error _ => ""

/-- Modelled from the spec (§4.3, for the refinement claim): the batch loop
when the distribution has already been built, so the trials receive
`(outcomes, probs)` directly instead of rebuilding them. -/
def runManyPrebuiltAux (outcomes : List String) (probs : List ℚ)
    (ts : Finset String) (u : ℕ → ℚ) (fuel : ℕ) : ℕ → ℕ → Option (List ℕ)
  | 0, _ => some []
  | n + 1, pos =>
    match runTrialAux outcomes probs ts u fuel ∅ 0 pos with
    | none => none
    | some (k, pos') =>
      (runManyPrebuiltAux outcomes probs ts u fuel n pos').map (k :: ·)

/-- Modelled from the spec (§4.3, for the refinement claim): the batch
executor variant in which the distribution "is rebuilt once (not per trial)":
it is built a single time at the start of the batch and every trial uses the
prebuilt `(outcomes, probs)`. -/
def run_many_trials_build_once (players : List TargetPlayer) (n_trials : ℤ)
    (u : ℕ → ℚ) (fuel : ℕ) : Except SimError (Option (List ℕ)) :=
  if n_trials ≤ 0 then .error .invalidTrialCount
  else
    match _build_distribution players with
    | .error e => .error e
    | .ok (outcomes, probs) =>
      .ok (runManyPrebuiltAux outcomes probs
            (players.map TargetPlayer.name).toFinset u fuel n_trials.toNat 0)

/-- The batch loop of `run_many_trials`, instrumented with the number of
`_build_distribution` invocations it performs.  Each `run_single_trial` call
invokes `_build_distribution` exactly once, so the count rises by one per
trial started; the first component is the uninstrumented batch result. -/
def runManyCountingAux (players : List TargetPlayer) (u : ℕ → ℚ) (fuel : ℕ) :
    ℕ → ℕ → Except SimError (Option (List ℕ)) × ℕ
  | 0, _ => (.ok (some []), 0)
  | n + 1, pos =>
    match run_single_trial players u fuel pos with
    | .error e => (.error e, 1)
    | .ok none => (.ok none, 1)
    | .ok (some (k, pos')) =>
      let rest := runManyCountingAux players u fuel n pos'
      (match rest.1 with
        | .error e => .error e
        | .ok none => .ok none
        | .ok (some ks) => .ok (some (k :: ks)), rest.2 + 1)

/-! ## Properties of the distribution builder -/

lemma any_neg_eq_false {players : List TargetPlayer}
    (h1 : ∀ pl ∈ players, 0 ≤ pl.p) :
    (players.any fun pl => decide (pl.p < 0)) = false := by
  simp only [List.any_eq_false, decide_eq_true_eq, not_lt]
  exact h1

lemma raw_probs_sum (players : List TargetPlayer) :
    (players.map TargetPlayer.p ++ [1 - sumP players]).sum = 1 := by
  simp only [List.sum_append, List.sum_cons, List.sum_nil, sumP]
  ring

lemma build_distribution_ok {players : List TargetPlayer}
    (h1 : ∀ pl ∈ players, 0 ≤ pl.p) (h2 : sumP players ≤ 1) :
    _build_distribution players =
      .ok (players.map TargetPlayer.name ++ ["OTHER"],
           players.map TargetPlayer.p ++ [1 - sumP players]) := by
  unfold _build_distribution
  rw [any_neg_eq_false h1]
  simp only [Bool.false_eq_true, if_false, raw_probs_sum, div_one,
    if_neg (not_lt.2 h2), List.map_id']

lemma build_distribution_error_neg {players : List TargetPlayer}
    (h : ∃ pl ∈ players, pl.p < 0) :
    _build_distribution players = .error .invalidProbability := by
  unfold _build_distribution
  have hany : (players.any fun pl => decide (pl.p < 0)) = true := by
    simp only [List.any_eq_true, decide_eq_true_eq]
    exact h
  rw [hany]
  simp

lemma build_distribution_error_budget {players : List TargetPlayer}
    (h1 : ∀ pl ∈ players, 0 ≤ pl.p) (h2 : 1 < sumP players) :
    _build_distribution players =
      .error (.probabilityBudgetExceeded (sumP players)) := by
  unfold _build_distribution
  rw [any_neg_eq_false h1]
  simp only [Bool.false_eq_true, if_false, if_pos h2]

/-- **C3** (corrected) — counterexample to the claim as stated: on the valid
one-item list `[("A", 1/2)]` the builder appends the synthetic outcome
`"OTHER"`, not one named `"NONE"`. -/
theorem C3_counterexample_synthetic_name :
    _build_distribution [⟨"A", 1/2⟩] = .ok (["A", "OTHER"], [1/2, 1/2]) ∧
    "OTHER" ≠ "NONE" := by
  with_unfolding_all decide

/-- **C3** (amended): for every valid input list (no negative probability,
sum at most 1) the builder appends exactly one synthetic outcome named
`"OTHER"` as the last element, with weight `1 - sum(target probabilities)`;
when the probabilities sum to exactly 1 that last weight is 0. -/
theorem C3_build_appends_OTHER (players : List TargetPlayer)
    (h1 : ∀ pl ∈ players, 0 ≤ pl.p) (h2 : sumP players ≤ 1) :
    _build_distribution players =
      .ok (players.map TargetPlayer.name ++ ["OTHER"],
           players.map TargetPlayer.p ++ [1 - sumP players]) ∧
    (sumP players = 1 →
      (players.map TargetPlayer.p ++ [1 - sumP players]).getLast? = some 0) := by
  refine ⟨build_distribution_ok h1 h2, fun h => ?_⟩
  rw [List.getLast?_concat, h]
  norm_num

/-- **C3** witness: the amended claim at the concrete list `[("A", 1)]`,
whose probabilities sum to exactly 1: the `"OTHER"` weight is 0. -/
theorem C3_witness :
    (∀ pl ∈ [(⟨"A", 1⟩ : TargetPlayer)], 0 ≤ pl.p) ∧
    (List.map TargetPlayer.p [⟨"A", 1⟩] ++ [1 - sumP [⟨"A", 1⟩]]).getLast?
      = some 0 :=
  ⟨by with_unfolding_all decide,
   (C3_build_appends_OTHER [⟨"A", 1⟩] (by with_unfolding_all decide)
     (by with_unfolding_all decide)).2 (by with_unfolding_all decide)⟩

/-- **C4**: for every valid input list the builder returns outcomes and
weights of equal length `players.length + 1`, each weight is the raw weight
divided by the actual raw-weight sum, and the weights sum to exactly 1. -/
theorem C4_normalized_distribution (players : List TargetPlayer)
    (h1 : ∀ pl ∈ players, 0 ≤ pl.p) (h2 : sumP players ≤ 1) :
    ∃ outcomes weights,
      _build_distribution players = .ok (outcomes, weights) ∧
      outcomes.length = players.length + 1 ∧
      weights.length = players.length + 1 ∧
      weights = (players.map TargetPlayer.p ++ [1 - sumP players]).map
        (· / (players.map TargetPlayer.p ++ [1 - sumP players]).sum) ∧
      weights.sum = 1 := by
  refine ⟨_, _, build_distribution_ok h1 h2, by simp, by simp, ?_, raw_probs_sum players⟩
  rw [raw_probs_sum]
  simp [div_one]

/-- **C4** witness: the distribution built from `[("A", 1/2)]`. -/
theorem C4_witness :
    (∀ pl ∈ [(⟨"A", 1/2⟩ : TargetPlayer)], 0 ≤ pl.p) ∧
    ∃ outcomes weights,
      _build_distribution [(⟨"A", 1/2⟩ : TargetPlayer)] = .ok (outcomes, weights) ∧
      outcomes.length = 1 + 1 ∧ weights.length = 1 + 1 ∧
      weights = (List.map TargetPlayer.p [⟨"A", 1/2⟩] ++ [1 - sumP [⟨"A", 1/2⟩]]).map
        (· / (List.map TargetPlayer.p [⟨"A", 1/2⟩] ++ [1 - sumP [⟨"A", 1/2⟩]]).sum) ∧
      weights.sum = 1 :=
  ⟨by with_unfolding_all decide,
   C4_normalized_distribution [⟨"A", 1/2⟩] (by with_unfolding_all decide)
     (by with_unfolding_all decide)⟩

/-- **C6**: the builder fails with `InvalidProbability` iff some probability
is negative; with no negative probability it fails with
`ProbabilityBudgetExceeded` iff the probabilities sum above 1 (exact
comparison, no tolerance); otherwise it succeeds. -/
theorem C6_builder_error_conditions (players : List TargetPlayer) :
    (_build_distribution players = .error .invalidProbability ↔
      ∃ pl ∈ players, pl.p < 0) ∧
    ((∀ pl ∈ players, 0 ≤ pl.p) →
      (_build_distribution players =
          .error (.probabilityBudgetExceeded (sumP players)) ↔
        1 < sumP players)) ∧
    ((∀ pl ∈ players, 0 ≤ pl.p) → sumP players ≤ 1 →
      ∃ outcomes weights,
        _build_distribution players = .ok (outcomes, weights)) := by
  refine ⟨?_, fun h1 => ?_, fun h1 h2 => ⟨_, _, build_distribution_ok h1 h2⟩⟩
  · constructor
    · intro heq
      by_contra hneg
      push_neg at hneg
      rcases le_or_lt (sumP players) 1 with h2 | h2
      · rw [build_distribution_ok hneg h2] at heq
        cases heq
      · rw [build_distribution_error_budget hneg h2] at heq
        cases heq
    · exact build_distribution_error_neg
  · constructor
    · intro heq
      by_contra h2
      push_neg at h2
      rw [build_distribution_ok h1 h2] at heq
      cases heq
    · exact build_distribution_error_budget h1

/-- **C6** witness: probabilities summing to 1.1 yield
`ProbabilityBudgetExceeded`, matching the spec's example. -/
theorem C6_witness :
    (∀ pl ∈ [(⟨"A", 11/10⟩ : TargetPlayer)], 0 ≤ pl.p) ∧
    _build_distribution [(⟨"A", 11/10⟩ : TargetPlayer)] =
      .error (.probabilityBudgetExceeded (sumP [⟨"A", 11/10⟩])) :=
  ⟨by with_unfolding_all decide,
   ((C6_builder_error_conditions [⟨"A", 11/10⟩]).2.1
     (by with_unfolding_all decide)).mpr (by with_unfolding_all decide)⟩

/-! ## Properties of the trial runner -/

lemma updateCollected_OTHER (c : Finset String) : updateCollected c "OTHER" = c := by
  simp [updateCollected]

lemma updateCollected_superset (c : Finset String) (d : String) :
    c ⊆ updateCollected c d := by
  unfold updateCollected
  split_ifs
  · exact Finset.subset_insert d c
  · exact Finset.Subset.refl c

lemma updateCollected_card (c : Finset String) (d : String) :
    (updateCollected c d).card ≤ c.card + 1 := by
  unfold updateCollected
  split_ifs
  · exact Finset.card_insert_le d c
  · omega

lemma updateCollected_subset {c ts : Finset String} {d : String} (hc : c ⊆ ts)
    (hd : d ≠ "OTHER" → d ∈ ts) : updateCollected c d ⊆ ts := by
  unfold updateCollected
  split_ifs with h
  · exact Finset.insert_subset (hd h) hc
  · exact hc

lemma updateCollected_not_OTHER_mem {c : Finset String} {d : String}
    (hc : "OTHER" ∉ c) : "OTHER" ∉ updateCollected c d := by
  unfold updateCollected
  split_ifs with h
  · intro hmem
    rcases Finset.mem_insert.1 hmem with he | he
    · exact h he.symm
    · exact hc he
  · exact hc

lemma choiceDraw_mem {outcomes : List String} {probs : List ℚ} (x : ℚ)
    (hlen : probs.length = outcomes.length) (hne : outcomes ≠ []) :
    choiceDraw outcomes probs x ∈ outcomes := by
  unfold choiceDraw
  have h0 : 0 < outcomes.length := List.length_pos.2 hne
  have hmin := Nat.min_le_right (sampleIndex probs (x * probs.sum))
    (probs.length - 1)
  have hlt : min (sampleIndex probs (x * probs.sum)) (probs.length - 1)
      < outcomes.length := by omega
  rw [List.getD_eq_getElem _ _ hlt]
  exact List.getElem_mem hlt

lemma runTrialAux_stop {outcomes probs ts u c packs pos} (h : c = ts) :
    ∀ fuel, runTrialAux outcomes probs ts u fuel c packs pos = some (packs, pos) := by
  intro fuel
  cases fuel <;> simp [runTrialAux, h]

lemma runTrialAux_mono {outcomes : List String} {probs : List ℚ}
    {ts : Finset String} {u : ℕ → ℚ} :
    ∀ fuel {c packs pos k pos'},
      runTrialAux outcomes probs ts u fuel c packs pos = some (k, pos') →
      packs ≤ k
  | 0, c, packs, pos, k, pos', h => by
    unfold runTrialAux at h
    split at h
    · rw [Option.some.injEq, Prod.mk.injEq] at h
      omega
    · cases h
  | fuel + 1, c, packs, pos, k, pos', h => by
    unfold runTrialAux at h
    split at h
    · rw [Option.some.injEq, Prod.mk.injEq] at h
      omega
    · have := runTrialAux_mono fuel h
      omega

lemma runTrialAux_card {outcomes : List String} {probs : List ℚ}
    {ts : Finset String} {u : ℕ → ℚ} :
    ∀ fuel {c packs pos k pos'},
      runTrialAux outcomes probs ts u fuel c packs pos = some (k, pos') →
      packs + ts.card ≤ k + c.card
  | 0, c, packs, pos, k, pos', h => by
    unfold runTrialAux at h
    split at h
    · rw [Option.some.injEq, Prod.mk.injEq] at h
      subst_vars
      omega
    · cases h
  | fuel + 1, c, packs, pos, k, pos', h => by
    unfold runTrialAux at h
    split at h
    · rw [Option.some.injEq, Prod.mk.injEq] at h
      subst_vars
      omega
    · have hrec := runTrialAux_card fuel h
      have hcard := updateCollected_card c (choiceDraw outcomes probs (u pos))
      omega

lemma runTrialAux_none_of_OTHER_mem {outcomes : List String} {probs : List ℚ}
    {ts : Finset String} {u : ℕ → ℚ} (hts : "OTHER" ∈ ts) :
    ∀ fuel {c packs pos}, "OTHER" ∉ c →
      runTrialAux outcomes probs ts u fuel c packs pos = none
  | 0, c, packs, pos, hc => by
    unfold runTrialAux
    rw [if_neg fun h => hc (by rw [h]; exact hts)]
  | fuel + 1, c, packs, pos, hc => by
    unfold runTrialAux
    rw [if_neg fun h => hc (by rw [h]; exact hts)]
    exact runTrialAux_none_of_OTHER_mem hts fuel (updateCollected_not_OTHER_mem hc)

lemma runTrialAux_terminates {outcomes : List String} {probs : List ℚ}
    {ts : Finset String} {u : ℕ → ℚ}
    (hlen : probs.length = outcomes.length) (hne : outcomes ≠ [])
    (hOther : "OTHER" ∉ ts)
    (hsub : ∀ s ∈ outcomes, s = "OTHER" ∨ s ∈ ts) :
    ∀ m {c packs pos}, c ⊆ ts →
      (∀ name ∈ ts, name ∉ c →
        ∃ i, pos ≤ i ∧ i < pos + m ∧ choiceDraw outcomes probs (u i) = name) →
      ∃ k pos', runTrialAux outcomes probs ts u m c packs pos = some (k, pos')
  | 0, c, packs, pos, hc, hcov => by
    have hceq : c = ts := by
      refine Finset.Subset.antisymm hc fun name hn => ?_
      by_contra hnc
      obtain ⟨i, h1, h2, _⟩ := hcov name hn hnc
      omega
    exact ⟨packs, pos, runTrialAux_stop hceq 0⟩
  | m + 1, c, packs, pos, hc, hcov => by
    by_cases hceq : c = ts
    · exact ⟨packs, pos, runTrialAux_stop hceq (m + 1)⟩
    · have hdmem : choiceDraw outcomes probs (u pos) ∈ outcomes :=
        choiceDraw_mem (u pos) hlen hne
      have hc' : updateCollected c (choiceDraw outcomes probs (u pos)) ⊆ ts :=
        updateCollected_subset hc fun hd =>
          (hsub _ hdmem).resolve_left hd
      have hcov' : ∀ name ∈ ts,
          name ∉ updateCollected c (choiceDraw outcomes probs (u pos)) →
          ∃ i, pos + 1 ≤ i ∧ i < (pos + 1) + m ∧
            choiceDraw outcomes probs (u i) = name := by
        intro name hn hnc'
        have hnc : name ∉ c := fun h =>
          hnc' (updateCollected_superset c _ h)
        obtain ⟨i, h1, h2, h3⟩ := hcov name hn hnc
        rcases Nat.eq_or_lt_of_le h1 with rfl | h1'
        · exfalso
          apply hnc'
          have hname : name ≠ "OTHER" := fun h => hOther (h ▸ hn)
          rw [← h3]
          unfold updateCollected
          rw [if_pos (h3.symm ▸ hname), h3]
          exact Finset.mem_insert_self name c
        · exact ⟨i, h1', by omega, h3⟩
      obtain ⟨k, pos', hk⟩ := runTrialAux_terminates hlen hne hOther hsub m hc' hcov'
      refine ⟨k, pos', ?_⟩
      unfold runTrialAux
      rw [if_neg hceq]
      exact hk

lemma exists_uniform_bound (s : Finset String) (d : ℕ → String)
    (h : ∀ name ∈ s, ∃ i, d i = name) :
    ∃ m, ∀ name ∈ s, ∃ i, i < m ∧ d i = name := by
  classical
  induction s using Finset.induction_on with
  | empty => exact ⟨0, by simp⟩
  | @insert a s' _ ih =>
    obtain ⟨m, hm⟩ := ih fun name hn => h name (Finset.mem_insert_of_mem hn)
    obtain ⟨ia, hia⟩ := h a (Finset.mem_insert_self a s')
    refine ⟨max m (ia + 1), fun name hn => ?_⟩
    rcases Finset.mem_insert.1 hn with rfl | hn
    · exact ⟨ia, by omega, hia⟩
    · obtain ⟨i, him, hd⟩ := hm name hn
      exact ⟨i, by omega, hd⟩

/-- **C8**: sampling the synthetic outcome `"OTHER"` never adds an element to
the collected set, and at every state the trial loop stops — returning the
accumulated pack counter — exactly when the collected set equals the target
name set. -/
theorem C8_stop_condition (outcomes : List String) (probs : List ℚ)
    (ts : Finset String) (u : ℕ → ℚ) (fuel : ℕ) (c : Finset String)
    (packs pos : ℕ) :
    updateCollected c "OTHER" = c ∧
    ((∃ pos', runTrialAux outcomes probs ts u fuel c packs pos = some (packs, pos'))
      ↔ c = ts) := by
  refine ⟨updateCollected_OTHER c, ?_, fun h => ⟨pos, runTrialAux_stop h fuel⟩⟩
  rintro ⟨pos', h⟩
  by_contra hne
  cases fuel with
  | zero =>
    unfold runTrialAux at h
    rw [if_neg hne] at h
    cases h
  | succ m =>
    unfold runTrialAux at h
    rw [if_neg hne] at h
    have := runTrialAux_mono m h
    omega

/-- **C10**: a target player named `"OTHER"` passes validation (the builder
performs no collision check), but a draw of that name is never added to the
collected set, so `run_single_trial` never reaches its stopping condition:
for every stream, fuel bound and stream position it fails to stop. -/
theorem C10_OTHER_collision_never_terminates (players : List TargetPlayer)
    (hmem : "OTHER" ∈ players.map TargetPlayer.name)
    (h1 : ∀ pl ∈ players, 0 ≤ pl.p) (h2 : sumP players ≤ 1) :
    (∃ outcomes weights,
      _build_distribution players = .ok (outcomes, weights)) ∧
    (∀ (u : ℕ → ℚ) (fuel pos : ℕ),
      run_single_trial players u fuel pos = .ok none) := by
  refine ⟨⟨_, _, build_distribution_ok h1 h2⟩, fun u fuel pos => ?_⟩
  have hts : "OTHER" ∈ (players.map TargetPlayer.name).toFinset :=
    List.mem_toFinset.2 hmem
  simp only [run_single_trial, build_distribution_ok h1 h2]
  rw [runTrialAux_none_of_OTHER_mem hts fuel (Finset.not_mem_empty "OTHER")]

/-- **C10** witness: the one-item list `[("OTHER", 1/2)]` is accepted, and the
trial does not stop within 3 draws (and, by the theorem, within any fuel). -/
theorem C10_witness :
    ("OTHER" ∈ List.map TargetPlayer.name [(⟨"OTHER", 1/2⟩ : TargetPlayer)]) ∧
    run_single_trial [(⟨"OTHER", 1/2⟩ : TargetPlayer)] (fun _ => 0) 3 0 = .ok none :=
  ⟨by with_unfolding_all decide,
   (C10_OTHER_collision_never_terminates [⟨"OTHER", 1/2⟩]
     (by with_unfolding_all decide) (by with_unfolding_all decide)
     (by with_unfolding_all decide)).2 (fun _ => 0) 3 0⟩

/-! ## Termination and lower bound for `run_single_trial` (C1) -/

lemma sampleIndex_take_sum :
    ∀ (ws : List ℚ) (j : ℕ), j < ws.length → (∀ w ∈ ws.take j, 0 ≤ w) →
      0 < ws.getD j 0 → sampleIndex ws ((ws.take j).sum) = j
  | [], j, hj, _, _ => by simp at hj
  | w :: ws', 0, _, _, hpos => by
    rw [List.take_zero, List.sum_nil]
    unfold sampleIndex
    rw [if_pos (by simpa using hpos)]
  | w :: ws', j + 1, hj, hpre, hpos => by
    have hpre' : ∀ x ∈ ws'.take j, 0 ≤ x := fun x hx =>
      hpre x (by rw [List.take_succ_cons]; exact List.mem_cons_of_mem w hx)
    have hs' : 0 ≤ (ws'.take j).sum := List.sum_nonneg hpre'
    rw [List.take_succ_cons, List.sum_cons]
    unfold sampleIndex
    rw [if_neg (by linarith)]
    have harg : w + (ws'.take j).sum - w = (ws'.take j).sum := by ring
    rw [harg,
      sampleIndex_take_sum ws' j (by simpa using hj) hpre' (by simpa using hpos)]

lemma choiceDraw_hits (outcomes : List String) (probs : List ℚ) (j : ℕ)
    (hlen : probs.length = outcomes.length) (hj : j < outcomes.length)
    (hnonneg : ∀ w ∈ probs, 0 ≤ w) (hsum1 : probs.sum = 1)
    (hjpos : 0 < probs.getD j 0) :
    ∃ v : ℚ, 0 ≤ v ∧ v < 1 ∧ choiceDraw outcomes probs v = outcomes.getD j "" := by
  have hjp : j < probs.length := by omega
  refine ⟨(probs.take j).sum,
    List.sum_nonneg fun x hx => hnonneg x (List.take_subset j probs hx), ?_, ?_⟩
  · have hsplit : (probs.take j).sum + (probs.drop j).sum = probs.sum := by
      rw [← List.sum_append, List.take_append_drop]
    have hdrop : probs.drop j = probs[j] :: probs.drop (j + 1) :=
      List.drop_eq_getElem_cons hjp
    have hjval : 0 < probs[j] := by
      rw [← List.getD_eq_getElem probs 0 hjp]
      exact hjpos
    have hrest : 0 ≤ (probs.drop (j + 1)).sum :=
      List.sum_nonneg fun x hx => hnonneg x (List.drop_subset _ probs hx)
    have hdsum : 0 < (probs.drop j).sum := by
      rw [hdrop, List.sum_cons]
      linarith
    linarith
  · unfold choiceDraw
    rw [hsum1, mul_one,
      sampleIndex_take_sum probs j hjp (fun x hx => hnonneg x (List.take_subset j probs hx)) hjpos]
    have hmin : min j (probs.length - 1) = j := by omega
    rw [hmin]

lemma trialDraw_eq {players : List TargetPlayer}
    (h1 : ∀ pl ∈ players, 0 ≤ pl.p) (h2 : sumP players ≤ 1) (v : ℚ) :
    trialDraw players v =
      choiceDraw (players.map TargetPlayer.name ++ ["OTHER"])
        (players.map TargetPlayer.p ++ [1 - sumP players]) v := by
  simp only [trialDraw, build_distribution_ok h1 h2]

lemma raw_probs_nonneg {players : List TargetPlayer}
    (h1 : ∀ pl ∈ players, 0 ≤ pl.p) (h2 : sumP players ≤ 1) :
    ∀ w ∈ players.map TargetPlayer.p ++ [1 - sumP players], 0 ≤ w := by
  intro w hw
  rcases List.mem_append.1 hw with h | h
  · obtain ⟨pl', hpl', rfl⟩ := List.mem_map.1 h
    exact h1 pl' hpl'
  · have hweq : w = 1 - sumP players := by simpa using h
    rw [hweq]
    linarith

lemma trialDraw_hits {players : List TargetPlayer}
    (hpos : ∀ pl ∈ players, 0 < pl.p) (hsum : sumP players ≤ 1) :
    ∀ pl ∈ players, ∃ v : ℚ, 0 ≤ v ∧ v < 1 ∧ trialDraw players v = pl.name := by
  intro pl hpl
  have h1 : ∀ pl ∈ players, 0 ≤ pl.p := fun pl h => (hpos pl h).le
  obtain ⟨j, hj, hget⟩ := List.mem_iff_getElem.1 hpl
  have hjmap : j < (players.map TargetPlayer.p).length := by simpa using hj
  have hjname : j < (players.map TargetPlayer.name).length := by simpa using hj
  have hjp : j < (players.map TargetPlayer.p ++ [1 - sumP players]).length := by
    simp
    omega
  have hjo : j < (players.map TargetPlayer.name ++ ["OTHER"]).length := by
    simp
    omega
  have hjval : (players.map TargetPlayer.p ++ [1 - sumP players]).getD j 0 = pl.p := by
    rw [List.getD_eq_getElem _ _ hjp, List.getElem_append_left hjmap,
      List.getElem_map, hget]
  have hname : (players.map TargetPlayer.name ++ ["OTHER"]).getD j "" = pl.name := by
    rw [List.getD_eq_getElem _ _ hjo, List.getElem_append_left hjname,
      List.getElem_map, hget]
  obtain ⟨v, hv0, hv1, hvd⟩ := choiceDraw_hits
    (players.map TargetPlayer.name ++ ["OTHER"])
    (players.map TargetPlayer.p ++ [1 - sumP players]) j
    (by simp) hjo (raw_probs_nonneg h1 hsum) (raw_probs_sum players)
    (by rw [hjval]; exact hpos pl hpl)
  refine ⟨v, hv0, hv1, ?_⟩
  rw [trialDraw_eq h1 hsum, hvd, hname]

/-- **C1**: for every target list with strictly positive probabilities
summing to at most 1 (and, per the data model, distinct names that do not
collide with the synthetic outcome), the builder succeeds; every target is
drawn by some uniform value in `[0,1)` (positivity makes each target
reachable, which is why the coverage event below has probability 1); on
every random stream that eventually draws each target, `run_single_trial`
terminates; and whenever it terminates its result is at least the number of
target items. -/
theorem C1_trial_terminates_with_lower_bound (players : List TargetPlayer)
    (hpos : ∀ pl ∈ players, 0 < pl.p) (hsum : sumP players ≤ 1)
    (hnodup : (players.map TargetPlayer.name).Nodup)
    (hother : "OTHER" ∉ players.map TargetPlayer.name) :
    (∃ outcomes weights,
      _build_distribution players = .ok (outcomes, weights)) ∧
    (∀ pl ∈ players, ∃ v : ℚ, 0 ≤ v ∧ v < 1 ∧ trialDraw players v = pl.name) ∧
    (∀ u : ℕ → ℚ,
      (∀ pl ∈ players, ∃ i : ℕ, trialDraw players (u i) = pl.name) →
      ∃ fuel k pos', run_single_trial players u fuel 0 = .ok (some (k, pos'))) ∧
    (∀ (u : ℕ → ℚ) (fuel pos k pos' : ℕ),
      run_single_trial players u fuel pos = .ok (some (k, pos')) →
      players.length ≤ k) := by
  have h1 : ∀ pl ∈ players, 0 ≤ pl.p := fun pl h => (hpos pl h).le
  have hOther : "OTHER" ∉ (players.map TargetPlayer.name).toFinset :=
    fun h => hother (List.mem_toFinset.1 h)
  refine ⟨⟨_, _, build_distribution_ok h1 hsum⟩, trialDraw_hits hpos hsum,
    fun u hcov => ?_, fun u fuel pos k pos' h => ?_⟩
  · have hcov' : ∀ name ∈ (players.map TargetPlayer.name).toFinset,
        ∃ i, choiceDraw (players.map TargetPlayer.name ++ ["OTHER"])
          (players.map TargetPlayer.p ++ [1 - sumP players]) (u i) = name := by
      intro name hn
      obtain ⟨pl, hpl, rfl⟩ := List.mem_map.1 (List.mem_toFinset.1 hn)
      obtain ⟨i, hi⟩ := hcov pl hpl
      exact ⟨i, by rw [← trialDraw_eq h1 hsum]; exact hi⟩
    obtain ⟨m, hm⟩ := exists_uniform_bound _ _ hcov'
    obtain ⟨k, pos', hk⟩ := @runTrialAux_terminates
      (players.map TargetPlayer.name ++ ["OTHER"])
      (players.map TargetPlayer.p ++ [1 - sumP players])
      ((players.map TargetPlayer.name).toFinset) u
      (by simp) (by simp)
      hOther
      (fun s hs => by
        rcases List.mem_append.1 hs with h | h
        · exact Or.inr (List.mem_toFinset.2 h)
        · exact Or.inl (by simpa using h))
      m ∅ 0 0 (Finset.empty_subset _)
      (fun name hn _ => by
        obtain ⟨i, him, hd⟩ := hm name hn
        exact ⟨i, Nat.zero_le i, by omega, hd⟩)
    refine ⟨m, k, pos', ?_⟩
    simp only [run_single_trial, build_distribution_ok h1 hsum]
    rw [hk]
  · simp only [run_single_trial, build_distribution_ok h1 hsum,
      Except.ok.injEq] at h
    have hcard := runTrialAux_card fuel h
    rw [List.toFinset_card_of_nodup hnodup, List.length_map] at hcard
    simpa using hcard

/-- **C1** witness: the list `[("A", 1/2)]` with the all-zero stream — every
hypothesis holds, the constant stream draws `"A"` at every step, and the
trial stops. -/
theorem C1_witness :
    (∀ pl ∈ [(⟨"A", 1/2⟩ : TargetPlayer)], 0 < pl.p) ∧
    (∃ fuel k pos',
      run_single_trial [(⟨"A", 1/2⟩ : TargetPlayer)] (fun _ => 0) fuel 0 =
        .ok (some (k, pos'))) :=
  ⟨by with_unfolding_all decide,
   (C1_trial_terminates_with_lower_bound [⟨"A", 1/2⟩]
     (by with_unfolding_all decide) (by with_unfolding_all decide)
     (by with_unfolding_all decide) (by with_unfolding_all decide)).2.2.1
     (fun _ => 0)
     (fun pl hpl => ⟨0, by
        have hpleq : pl = ⟨"A", 1/2⟩ := by simpa using hpl
        rw [hpleq]
        with_unfolding_all decide⟩)⟩

/-! ## Properties of `quantile` -/

lemma quantile_eq_error_range {vals : List ℚ} {q : ℚ} (h : ¬ (0 ≤ q ∧ q ≤ 1)) :
    quantile vals q = .error .invalidQuantile := by
  unfold quantile
  rw [if_pos h]

lemma quantile_eq_error_empty {q : ℚ} (h0 : 0 ≤ q) (h1 : q ≤ 1) :
    quantile [] q = .error .emptyResultSet := by
  unfold quantile
  rw [if_neg (not_not_intro ⟨h0, h1⟩)]
  rfl

lemma quantile_ok_form (vals : List ℚ) (q : ℚ) (hne : vals ≠ [])
    (h0 : 0 ≤ q) (h1 : q ≤ 1) :
    quantile vals q = .ok
      (vals.getD (⌊((vals.length : ℚ) - 1) * q⌋.toNat) 0
          * (1 - (((vals.length : ℚ) - 1) * q
              - (⌊((vals.length : ℚ) - 1) * q⌋.toNat : ℚ)))
        + vals.getD
            (min (⌊((vals.length : ℚ) - 1) * q⌋.toNat + 1) (vals.length - 1)) 0
          * (((vals.length : ℚ) - 1) * q
              - (⌊((vals.length : ℚ) - 1) * q⌋.toNat : ℚ))) := by
  unfold quantile
  rw [if_neg (not_not_intro ⟨h0, h1⟩)]
  dsimp only
  rw [if_neg (by simpa using hne)]

/-- **C7**: `quantile` fails with `InvalidQuantile` iff `q` is outside
`[0,1]`; for `q` in range it fails with `EmptyResultSet` iff the collection
is empty; on a non-empty collection with `q` in range it returns a value. -/
theorem C7_quantile_error_conditions (vals : List ℚ) (q : ℚ) :
    (quantile vals q = .error .invalidQuantile ↔ ¬ (0 ≤ q ∧ q ≤ 1)) ∧
    (0 ≤ q → q ≤ 1 →
      (quantile vals q = .error .emptyResultSet ↔ vals = [])) ∧
    (vals ≠ [] → 0 ≤ q → q ≤ 1 → ∃ v, quantile vals q = .ok v) := by
  refine ⟨⟨fun heq => ?_, quantile_eq_error_range⟩,
    fun h0 h1 => ⟨fun heq => ?_, ?_⟩,
    fun hne h0 h1 => ⟨_, quantile_ok_form vals q hne h0 h1⟩⟩
  · rintro ⟨h0, h1⟩
    rcases eq_or_ne vals [] with rfl | hne
    · rw [quantile_eq_error_empty h0 h1] at heq
      simp at heq
    · rw [quantile_ok_form vals q hne h0 h1] at heq
      simp at heq
  · rcases eq_or_ne vals [] with rfl | hne
    · rfl
    · rw [quantile_ok_form vals q hne h0 h1] at heq
      simp at heq
  · rintro rfl
    exact quantile_eq_error_empty h0 h1

/-- **C7** witness: `q = 1.5` is rejected with `InvalidQuantile` (the spec's
example), derived from the theorem at the empty list. -/
theorem C7_witness :
    ¬ ((0:ℚ) ≤ 3/2 ∧ (3/2 : ℚ) ≤ 1) ∧
    quantile [] (3/2) = .error .invalidQuantile :=
  ⟨by with_unfolding_all decide,
   (C7_quantile_error_conditions [] (3/2)).1.mpr (by with_unfolding_all decide)⟩

/-- **C2** (corrected) — counterexample to the claim as stated: `quantile`
does not sort, so on the unordered collection `[3, 1, 2]` with `q = 0` it
returns 3 instead of the interpolated order statistic 1 (the minimum). -/
theorem C2_counterexample_unsorted_input :
    quantile [3, 1, 2] 0 = .ok 3 ∧ quantileSpec [3, 1, 2] 0 = 1 ∧
    quantile [3, 1, 2] 0 ≠ .ok (quantileSpec [3, 1, 2] 0) := by
  with_unfolding_all decide

/-- **C2** (amended): on every non-empty collection that is already sorted
ascending — as `main` supplies, sorting before the call — and `q ∈ [0,1]`,
`quantile` returns the linearly-interpolated order statistic: with fractional
rank `pos = (n-1)*q` it interpolates between the values at the floor and
ceiling indices of `pos` (so on `[1,2,3,4]` it returns 2.5 for q=0.5, 1 for
q=0 and 4 for q=1, per the witness). -/
theorem C2_quantile_on_sorted (vals : List ℚ) (q : ℚ) (hne : vals ≠ [])
    (hsorted : List.Sorted (· ≤ ·) vals) (h0 : 0 ≤ q) (h1 : q ≤ 1) :
    quantile vals q = .ok (quantileSpec vals q) := by
  rw [quantile_ok_form vals q hne h0 h1]
  unfold quantileSpec
  rw [List.Sorted.insertionSort_eq hsorted]
  dsimp only
  have hn1 : 1 ≤ vals.length := List.length_pos.2 hne
  have hcage : (0:ℚ) ≤ (vals.length : ℚ) - 1 := by
    have : (1:ℚ) ≤ (vals.length : ℚ) := by exact_mod_cast hn1
    linarith
  have hpos0 : 0 ≤ ((vals.length : ℚ) - 1) * q := mul_nonneg hcage h0
  have hfl0 : 0 ≤ ⌊((vals.length : ℚ) - 1) * q⌋ := Int.floor_nonneg.2 hpos0
  have hcast : ((⌊((vals.length : ℚ) - 1) * q⌋.toNat : ℚ))
      = (⌊((vals.length : ℚ) - 1) * q⌋ : ℚ) := by
    exact_mod_cast congrArg (fun z : ℤ => (z : ℚ)) (Int.toNat_of_nonneg hfl0)
  by_cases hfrac : ((vals.length : ℚ) - 1) * q
      - (⌊((vals.length : ℚ) - 1) * q⌋.toNat : ℚ) = 0
  · rw [hfrac]
    ring_nf
  · have hlt : (⌊((vals.length : ℚ) - 1) * q⌋ : ℚ) < ((vals.length : ℚ) - 1) * q := by
      rcases lt_or_eq_of_le (Int.floor_le (((vals.length : ℚ) - 1) * q)) with h | h
      · exact h
      · exact absurd (by rw [hcast, h]; ring) hfrac
    have hple : ((vals.length : ℚ) - 1) * q ≤ (vals.length : ℚ) - 1 := by
      nlinarith
    have hne1 : ((vals.length : ℚ) - 1) * q ≠ (vals.length : ℚ) - 1 := by
      intro h
      apply hfrac
      have hfleq : ⌊((vals.length : ℚ) - 1) * q⌋ = (vals.length : ℤ) - 1 := by
        rw [h]
        rw [show ((vals.length : ℚ) - 1) = (((vals.length : ℤ) - 1 : ℤ) : ℚ) by push_cast; ring]
        exact Int.floor_intCast _
      rw [hcast, hfleq, h]
      push_cast
      ring
    have hplt : ((vals.length : ℚ) - 1) * q < (vals.length : ℚ) - 1 :=
      lt_of_le_of_ne hple hne1
    have hflt : ⌊((vals.length : ℚ) - 1) * q⌋ < (vals.length : ℤ) - 1 := by
      have h2 : (⌊((vals.length : ℚ) - 1) * q⌋ : ℚ) < (((vals.length : ℤ) - 1 : ℤ) : ℚ) := by
        push_cast
        linarith [Int.floor_le (((vals.length : ℚ) - 1) * q)]
      exact_mod_cast h2
    have hceil : ⌈((vals.length : ℚ) - 1) * q⌉ = ⌊((vals.length : ℚ) - 1) * q⌋ + 1 := by
      have hle := Int.ceil_le_floor_add_one (((vals.length : ℚ) - 1) * q)
      have hgt : ⌊((vals.length : ℚ) - 1) * q⌋ < ⌈((vals.length : ℚ) - 1) * q⌉ := by
        have h2 : (⌊((vals.length : ℚ) - 1) * q⌋ : ℚ) < (⌈((vals.length : ℚ) - 1) * q⌉ : ℚ) :=
          lt_of_lt_of_le hlt (Int.le_ceil _)
        exact_mod_cast h2
      omega
    have hminEq : min (⌊((vals.length : ℚ) - 1) * q⌋.toNat + 1) (vals.length - 1)
        = ⌊((vals.length : ℚ) - 1) * q⌋.toNat + 1 := by
      omega
    have hceilNat : ⌈((vals.length : ℚ) - 1) * q⌉.toNat
        = ⌊((vals.length : ℚ) - 1) * q⌋.toNat + 1 := by
      omega
    rw [hminEq, hceilNat]

/-- **C2** witness: the spec's own examples on `[1,2,3,4]` — 2.5 for
`q = 0.5`, 1 for `q = 0` and 4 for `q = 1`. -/
theorem C2_witness :
    ([1, 2, 3, 4] : List ℚ) ≠ [] ∧ List.Sorted (· ≤ ·) [(1:ℚ), 2, 3, 4] ∧
    quantile [1, 2, 3, 4] (1/2) = .ok (5/2) ∧
    quantile [1, 2, 3, 4] 0 = .ok 1 ∧
    quantile [1, 2, 3, 4] 1 = .ok 4 :=
  ⟨by with_unfolding_all decide, by with_unfolding_all decide,
   (C2_quantile_on_sorted [1, 2, 3, 4] (1/2) (by with_unfolding_all decide)
     (by with_unfolding_all decide) (by with_unfolding_all decide)
     (by with_unfolding_all decide)).trans (by with_unfolding_all decide),
   (C2_quantile_on_sorted [1, 2, 3, 4] 0 (by with_unfolding_all decide)
     (by with_unfolding_all decide) (by with_unfolding_all decide)
     (by with_unfolding_all decide)).trans (by with_unfolding_all decide),
   (C2_quantile_on_sorted [1, 2, 3, 4] 1 (by with_unfolding_all decide)
     (by with_unfolding_all decide) (by with_unfolding_all decide)
     (by with_unfolding_all decide)).trans (by with_unfolding_all decide)⟩

/-! ## Batch executor: determinism and refinement -/

lemma runManyAux_eq_prebuilt {players : List TargetPlayer}
    {outcomes : List String} {probs : List ℚ}
    (hbuild : _build_distribution players = .ok (outcomes, probs))
    (u : ℕ → ℚ) (fuel : ℕ) :
    ∀ n pos, runManyAux players u fuel n pos =
      .ok (runManyPrebuiltAux outcomes probs
        (players.map TargetPlayer.name).toFinset u fuel n pos)
  | 0, _ => rfl
  | n + 1, pos => by
    unfold runManyAux runManyPrebuiltAux
    simp only [run_single_trial, hbuild]
    cases hres : runTrialAux outcomes probs
        (players.map TargetPlayer.name).toFinset u fuel ∅ 0 pos with
    | none => rfl
    | some kp =>
      obtain ⟨k, pos'⟩ := kp
      dsimp only
      rw [runManyAux_eq_prebuilt hbuild u fuel n pos']
      cases runManyPrebuiltAux outcomes probs
        (players.map TargetPlayer.name).toFinset u fuel n pos' <;> rfl

lemma runManyCountingAux_fst (players : List TargetPlayer) (u : ℕ → ℚ)
    (fuel : ℕ) :
    ∀ n pos, (runManyCountingAux players u fuel n pos).1 =
      runManyAux players u fuel n pos
  | 0, _ => rfl
  | n + 1, pos => by
    unfold runManyCountingAux runManyAux
    cases run_single_trial players u fuel pos with
    | error e => rfl
    | ok o =>
      cases o with
      | none => rfl
      | some kp =>
        obtain ⟨k, pos'⟩ := kp
        dsimp only
        rw [← runManyCountingAux_fst players u fuel n pos']

/-- **C5**: the batch executor is a pure function of the item list, the trial
count and the seeded stream: for any model `seedStream` of generator seeding,
two executions with identical item list, identical trial count and identical
seed produce identical result sequences.  (One stream is seeded once and its
position is threaded through the trials sequentially, so the whole batch is
reproducible.) -/
theorem C5_batch_determinism (seedStream : ℤ → ℕ → ℚ)
    (players₁ players₂ : List TargetPlayer) (n₁ n₂ seed₁ seed₂ : ℤ) (fuel : ℕ)
    (hp : players₁ = players₂) (hn : n₁ = n₂) (hs : seed₁ = seed₂) :
    run_many_trials players₁ n₁ (seedStream seed₁) fuel =
      run_many_trials players₂ n₂ (seedStream seed₂) fuel := by
  subst hp hn hs
  rfl

/-- **C5** witness: two 2-trial batches over `[("A", 1)]` with the same seed
agree, and both equal the concrete result sequence `[1, 1]`. -/
theorem C5_witness :
    ([(⟨"A", 1⟩ : TargetPlayer)] = [(⟨"A", 1⟩ : TargetPlayer)]) ∧
    run_many_trials [(⟨"A", 1⟩ : TargetPlayer)] 2 ((fun _ _ => 0) (42 : ℤ)) 2 =
      run_many_trials [(⟨"A", 1⟩ : TargetPlayer)] 2 ((fun _ _ => 0) (42 : ℤ)) 2 ∧
    run_many_trials [(⟨"A", 1⟩ : TargetPlayer)] 2 ((fun _ _ => 0) (42 : ℤ)) 2 =
      .ok (some [1, 1]) :=
  ⟨rfl,
   C5_batch_determinism (fun _ _ => 0) [⟨"A", 1⟩] [⟨"A", 1⟩] 2 2 42 42 2
     rfl rfl rfl,
   by with_unfolding_all decide⟩

/-- **C9** (corrected) — counterexample to "builds once per batch": on a
3-trial batch over `[("A", 1)]` the executor performs 3 builder invocations
(each `run_single_trial` call rebuilds the distribution), not 1, while its
result agrees with `run_many_trials`. -/
theorem C9_counterexample_builds_per_trial :
    (runManyCountingAux [⟨"A", 1⟩] (fun _ => 0) 2 3 0).2 = 3 ∧
    (runManyCountingAux [⟨"A", 1⟩] (fun _ => 0) 2 3 0).1 =
      run_many_trials [⟨"A", 1⟩] 3 (fun _ => 0) 2 ∧
    (3 : ℕ) ≠ 1 := by
  with_unfolding_all decide

/-- **C9** (amended): the batch executor builds the distribution once per
trial, and because `_build_distribution` is a pure function of the item list
this is result-equivalent to building it once per batch: for every item
list, trial count, stream and fuel the two variants produce the same result
sequence. -/
theorem C9_per_trial_build_equivalent_to_once (players : List TargetPlayer)
    (n_trials : ℤ) (u : ℕ → ℚ) (fuel : ℕ) :
    run_many_trials players n_trials u fuel =
      run_many_trials_build_once players n_trials u fuel := by
  unfold run_many_trials run_many_trials_build_once
  split_ifs with hn
  · rfl
  · cases hbuild : _build_distribution players with
    | error e =>
      have hn' : 0 < n_trials.toNat := by omega
      obtain ⟨m, hm⟩ : ∃ m, n_trials.toNat = m + 1 := ⟨n_trials.toNat - 1, by omega⟩
      rw [hm]
      unfold runManyAux
      simp only [run_single_trial, hbuild]
    | ok d =>
      obtain ⟨outcomes, probs⟩ := d
      rw [runManyAux_eq_prebuilt hbuild u fuel _ 0]
